import Mathlib

/-
Verification of the QOI ("Quite OK Image") codec of this repository
(package qoi: qoi.go, encoder.go, decoder.go, plus the older decoder kept
at the repository root, and the imgconv helper package).

The shallow embedding models bytes and 8-bit pixel channels as Nat with
explicit `% 256` wherever the Go code relies on uint8 wrap-around, Go's
int8 / int64 values as Int produced by explicit wrapping casts, the byte
stream as `List Nat`, fallible reads as `Option` / `Except`, and the
64-slot pixel cache as a function `Nat → Pixel` updated pointwise.
The byte sink of the encoder is modelled as never failing, so the I/O
failure modes of `binary.Write` do not appear: the encoder's result is
the list of bytes written plus an optional error.
-/

set_option maxHeartbeats 1000000

namespace QOI

/-- One NRGBA pixel: four 8-bit channels (color.NRGBA in the Go source).
Channels are modelled as Nat; all channel arithmetic wraps mod 256. -/
structure Pixel where
  r : Nat
  g : Nat
  b : Nat
  a : Nat
deriving DecidableEq, Repr

/-- Channels of a pixel are genuine bytes. -/
def wfPixel (p : Pixel) : Prop := p.r < 256 ∧ p.g < 256 ∧ p.b < 256 ∧ p.a < 256

instance (p : Pixel) : Decidable (wfPixel p) := by unfold wfPixel; infer_instance

/-- All pixels of a list are well formed. -/
def wfPixels (ps : List Pixel) : Prop := ∀ p ∈ ps, wfPixel p

instance (ps : List Pixel) : Decidable (wfPixels ps) :=
  List.decidableBAll _ ps

/- Constants from qoi.go. -/

def qoiMaxPixels : Nat := 400000000
/-- The magic bytes "qoif". -/
def qoiMagic : List Nat := [113, 111, 105, 102]
def qoiDefaultChannel : Nat := 4
def qoiDefaultColorSpace : Nat := 0
def qoiHeaderSize : Nat := 14
def qoiMaxBufferSize : Nat := 64
def qoiMaxRunSize : Nat := 62
def qoiEndMarker : List Nat := [0, 0, 0, 0, 0, 0, 0, 1]

def opINDEX : Nat := 0x00
def opDIFF : Nat := 0x40
def opLUMA : Nat := 0x80
def opRUN : Nat := 0xC0
def opRGB : Nat := 0xFE
def opRGBA : Nat := 0xFF

def maskOP : Nat := 0xC0
def mask6 : Nat := 0x3F
def mask4 : Nat := 0x0F
def mask2 : Nat := 0x03

/-- hash from qoi.go: `(3*c.R + 5*c.G + 7*c.B + 11*c.A) % qoiMaxBufferSize`,
computed entirely in uint8: each product wraps mod 256, the sums associate
to the left and wrap mod 256, then the final `% 64` is taken. -/
def hash (c : Pixel) : Nat :=
  (((3 * c.r % 256 + 5 * c.g % 256) % 256 + 7 * c.b % 256) % 256 + 11 * c.a % 256) % 256
    % qoiMaxBufferSize

/-- The pixel all slots of the cache start from (Go zero value of color.NRGBA). -/
def zeroPixel : Pixel := ⟨0, 0, 0, 0⟩

/-- The seeded previous pixel (0,0,0,255). -/
def seedPixel : Pixel := ⟨0, 0, 0, 255⟩

/-- Pointwise update of a 64-slot cache (array write `index[i] = p`). -/
def upd (c : Nat → Pixel) (i : Nat) (p : Pixel) : Nat → Pixel :=
  fun j => if j = i then p else c j

/-- The cache at the start of an encode or decode pass: all zero pixels. -/
def initCache : Nat → Pixel := fun _ => zeroPixel

/-- Wrap an Int to the int8 value with the same residue mod 256
(the result of any Go int8 arithmetic operation). -/
def wrap8 (z : Int) : Int :=
  if z % 256 < 128 then z % 256 else z % 256 - 256

/-- Go's `int8(x)` for a uint8 value x (modelled as Nat). -/
def i8 (n : Nat) : Int := wrap8 n

/-- Go's `uint8(z)` for an int value z: truncation mod 256. -/
def u8 (z : Int) : Nat := (z % 256).toNat

/-- Go's int64 value of a (possibly huge) Nat product: two's-complement
wrap mod 2^64. Go multiplication of int values wraps exactly like this. -/
def i64 (n : Nat) : Int :=
  if n % 18446744073709551616 < 9223372036854775808 then
    ((n % 18446744073709551616 : Nat) : Int)
  else
    ((n % 18446744073709551616 : Nat) : Int) - 18446744073709551616

/-- One chunk written by the encoder.  Each constructor records exactly the
bytes the Go encoder computes at the corresponding `writeBytes` call
(for RUN the run length is recorded; its byte is `opRUN | (run-1)`). -/
inductive Chunk where
  | run (r : Nat)
  | index (s : Nat)
  | diff (b : Nat)
  | luma (b1 b2 : Nat)
  | rgb (r g b : Nat)
  | rgba (r g b a : Nat)
deriving DecidableEq, Repr

/-- The bytes of one chunk, as written by encoder.go. -/
def chunkBytes : Chunk → List Nat
  | .run r => [opRUN ||| (r - 1)]
  | .index s => [opINDEX ||| s]
  | .diff b => [b]
  | .luma b1 b2 => [b1, b2]
  | .rgb r g b => [opRGB, r, g, b]
  | .rgba r g b a => [opRGBA, r, g, b, a]

/-- Flatten a chunk list to the byte stream. -/
def chunksBytes : List Chunk → List Nat
  | [] => []
  | c :: cs => chunkBytes c ++ chunksBytes cs

/-- Encoder loop state: the 64-entry cache `index`, `pxPrev`, and `run`. -/
structure EncSt where
  cache : Nat → Pixel
  prev : Pixel
  run : Nat

/-- Encoder state at the start of encodeBody. -/
def encInit : EncSt := ⟨initCache, seedPixel, 0⟩

/-- The pixel loop of encodeBody (encoder.go lines 82-150), one step per
pixel in row-major order.  `rest = []` is exactly Go's
`pxPos == pxLen-1`.  Returns the chunks written and the final state. -/
def encodeLoop : List Pixel → EncSt → List Chunk × EncSt
  | [], st => ([], st)
  | px :: rest, st =>
    if px = st.prev then
      let run := st.run + 1
      if run = qoiMaxRunSize ∨ rest = [] then
        let p := encodeLoop rest ⟨st.cache, px, 0⟩
        (.run run :: p.1, p.2)
      else
        encodeLoop rest ⟨st.cache, px, run⟩
    else
      let flush : List Chunk := if st.run > 0 then [.run st.run] else []
      let indexPos := hash px
      if st.cache indexPos = px then
        let p := encodeLoop rest ⟨st.cache, px, 0⟩
        (flush ++ .index indexPos :: p.1, p.2)
      else
        let cache' := upd st.cache indexPos px
        let chunk : Chunk :=
          if px.a = st.prev.a then
            let vr := wrap8 (i8 px.r - i8 st.prev.r)
            let vg := wrap8 (i8 px.g - i8 st.prev.g)
            let vb := wrap8 (i8 px.b - i8 st.prev.b)
            let vgR := wrap8 (vr - vg)
            let vgB := wrap8 (vb - vg)
            if vr > -3 ∧ vr < 2 ∧ vg > -3 ∧ vg < 2 ∧ vb > -3 ∧ vb < 2 then
              .diff (opDIFF ||| (u8 (vr + 2) <<< 4) ||| (u8 (vg + 2) <<< 2) ||| u8 (vb + 2))
            else if vgR > -9 ∧ vgR < 8 ∧ vg > -33 ∧ vg < 32 ∧ vgB > -9 ∧ vgB < 8 then
              .luma (opLUMA ||| u8 (vg + 32)) ((u8 (vgR + 8) <<< 4) ||| u8 (vgB + 8))
            else
              .rgb px.r px.g px.b
          else
            .rgba px.r px.g px.b px.a
        let p := encodeLoop rest ⟨cache', px, 0⟩
        (flush ++ chunk :: p.1, p.2)

/-- An input image for Encode: geometry, whether its color model is
image.NRGBA, and its pixels in row-major order. -/
structure Image where
  width : Nat
  height : Nat
  nrgba : Bool
  pixels : List Pixel

/-- Errors Encode can return (write errors of the sink are not modelled:
the modelled sink never fails). -/
inductive EncErr where
  | notNRGBA
  | invalidImageSize
deriving DecidableEq, Repr

/-- Big-endian bytes of Go's `uint32(n)` (binary.Write BigEndian). -/
def u32be (n : Nat) : List Nat :=
  [n / 16777216 % 256, n / 65536 % 256, n / 256 % 256, n % 256]

/-- The 14 header bytes written by encodeHeader. -/
def headerBytes (w h : Nat) : List Nat :=
  qoiMagic ++ u32be w ++ u32be h ++ [qoiDefaultChannel, qoiDefaultColorSpace]

/-- Encode (encoder.go lines 21-62): color-model gate, then encodeHeader's
geometry check (performed before any byte is written; Go evaluates
`mw*mh` in wrapping 64-bit arithmetic), then header, body, end marker.
Returns the bytes written and an optional error. -/
def Encode (m : Image) : List Nat × Option EncErr :=
  if m.nrgba = false then ([], some .notNRGBA)
  else if m.width = 0 ∨ m.height = 0 ∨ i64 (m.width * m.height) > (qoiMaxPixels : Int) then
    ([], some .invalidImageSize)
  else
    (headerBytes m.width m.height ++ chunksBytes (encodeLoop m.pixels encInit).1
      ++ qoiEndMarker, none)

/- ------------------------------------------------------------------ -/
/- Decoder (decoder.go).                                              -/
/- ------------------------------------------------------------------ -/

/-- Decoder loop state: colorBuffer, pxPrev, run. -/
structure DecSt where
  cache : Nat → Pixel
  prev : Pixel
  run : Nat

/-- Decoder state at the start of decode. -/
def decInit : DecSt := ⟨initCache, seedPixel, 0⟩

/-- Decoder errors, named after the Go error values/messages. -/
inductive DecErr where
  | ioError
  | notValidQoiFile
  | imageSizeInvalid
  | unexpectedEOF
  | invalidQoiSize
deriving DecidableEq, Repr

/-- Reading and dispatching one chunk (the switch in decoder.go lines
80-158): returns the new pxPrev, the new run counter and the remaining
bytes, or none on a short read. -/
def decodeStep : DecSt → List Nat → Option (Pixel × Nat × List Nat)
  | _, [] => none
  | st, b1 :: bs =>
    if b1 = opRGB then
      match bs with
      | r :: g :: b :: bs2 => some (⟨r, g, b, st.prev.a⟩, 0, bs2)
      | _ => none
    else if b1 = opRGBA then
      match bs with
      | r :: g :: b :: a :: bs2 => some (⟨r, g, b, a⟩, 0, bs2)
      | _ => none
    else if b1 &&& maskOP = opINDEX then
      some (st.cache (b1 &&& mask6), 0, bs)
    else if b1 &&& maskOP = opDIFF then
      some (⟨(st.prev.r + (((b1 >>> 4) &&& mask2) + 254) % 256) % 256,
             (st.prev.g + (((b1 >>> 2) &&& mask2) + 254) % 256) % 256,
             (st.prev.b + (((b1 >>> 0) &&& mask2) + 254) % 256) % 256,
             st.prev.a⟩, 0, bs)
    else if b1 &&& maskOP = opLUMA then
      match bs with
      | b2 :: bs2 =>
        let vg := ((b1 &&& mask6) + 224) % 256
        some (⟨(st.prev.r + ((vg + 248) % 256 + ((b2 >>> 4) &&& mask4)) % 256) % 256,
               (st.prev.g + vg) % 256,
               (st.prev.b + ((vg + 248) % 256 + ((b2 >>> 0) &&& mask4)) % 256) % 256,
               st.prev.a⟩, 0, bs2)
      | [] => none
    else if b1 &&& maskOP = opRUN then
      some (st.prev, b1 &&& mask6, bs)
    else
      some (st.prev, 0, bs)

/-- The pixel loop of decode (decoder.go lines 65-162): produce `n` pixels.
A position satisfied by a pending run consumes no bytes and does not touch
the cache; otherwise one chunk is read, and the cache is updated with the
resolved pixel.  Returns the pixels, the final state and the remaining
bytes. -/
def decodeLoop : Nat → DecSt → List Nat → Option (List Pixel × DecSt × List Nat)
  | 0, st, bs => some ([], st, bs)
  | n + 1, st, bs =>
    if st.run > 0 then
      match decodeLoop n ⟨st.cache, st.prev, st.run - 1⟩ bs with
      | some (out, st2, rest) => some (st.prev :: out, st2, rest)
      | none => none
    else
      match decodeStep st bs with
      | some (px, drun, bs2) =>
        match decodeLoop n ⟨upd st.cache (hash px) px, px, drun⟩ bs2 with
        | some (out, st2, rest) => some (px :: out, st2, rest)
        | none => none
      | none => none

/-- Parsed header fields. -/
structure Header where
  width : Nat
  height : Nat
  channels : Nat
  colorspace : Nat
deriving DecidableEq, Repr

/-- binary.BigEndian.Uint32 of a 4-byte slice. -/
def parseU32 : List Nat → Nat
  | [a, b, c, d] => ((a * 256 + b) * 256 + c) * 256 + d
  | _ => 0

/-- decodeHeader of decoder.go (lines 27-51).  `d.buf.Read(h)` on a bufio
reader over a byte source returns min(14, available) bytes without error
when at least one byte is available (the rest of `h` stays zero), and
io.EOF when none is.  Width and height are Go `int` (64 bit) values of the
parsed uint32s; the product check `width*height > qoiMaxPixels` is
evaluated in wrapping 64-bit signed arithmetic. -/
def decodeHeader (bytes : List Nat) : Except DecErr (Header × List Nat) :=
  if bytes.length = 0 then .error .ioError
  else
    let h := bytes.take qoiHeaderSize ++ List.replicate (qoiHeaderSize - bytes.length) 0
    let w := parseU32 ((h.drop 4).take 4)
    let ht := parseU32 ((h.drop 8).take 4)
    let ch := h.getD 12 0
    let cs := h.getD 13 0
    if ch < 3 ∨ ch > 4 ∨ cs > 1 ∨ h.take 4 ≠ qoiMagic then .error .notValidQoiFile
    else if w = 0 ∨ ht = 0 ∨ i64 (w * ht) > (qoiMaxPixels : Int) then .error .imageSizeInvalid
    else .ok (⟨w, ht, ch, cs⟩, bytes.drop qoiHeaderSize)

/-- decodeHeader of the older decoder kept at the repository root
(src/unnamed/part_000, lines 26-47).  There width and height are uint32
and `d.h.width*d.h.height > qoiMaxPixels` wraps mod 2^32; reads go through
binary.Read, which fails on short input. -/
def decodeHeaderOld (bytes : List Nat) : Except DecErr (Header × List Nat) :=
  if bytes.length < qoiHeaderSize then .error .ioError
  else
    let h := bytes.take qoiHeaderSize
    let w := parseU32 ((h.drop 4).take 4)
    let ht := parseU32 ((h.drop 8).take 4)
    let ch := h.getD 12 0
    let cs := h.getD 13 0
    if ch < 3 ∨ ch > 4 ∨ cs > 1 ∨ h.take 4 ≠ qoiMagic then .error .notValidQoiFile
    else if w = 0 ∨ ht = 0 ∨ w * ht % 4294967296 > qoiMaxPixels then .error .imageSizeInvalid
    else .ok (⟨w, ht, ch, cs⟩, bytes.drop qoiHeaderSize)

/-- The comparison and EOF logic of decodePadding (decoder.go lines
165-187) as a function of the bytes its 8-byte `d.buf.Read` call delivers
in one go: zero padding past the end of the delivered bytes (io.EOF only
when nothing is available), compare with the end marker, then require the
next ReadByte to hit io.EOF.  How many of the remaining stream bytes that
Read call actually delivers depends on the absolute stream offset;
decodePaddingAt below adds that dependence. -/
def decodePadding (bytes : List Nat) : Except DecErr Unit :=
  if bytes.length = 0 then .error .ioError
  else
    let padding := bytes.take 8 ++ List.replicate (8 - bytes.length) 0
    if padding ≠ qoiEndMarker then .error .unexpectedEOF
    else if bytes.drop 8 ≠ [] then .error .invalidQoiSize
    else .ok ()

/-- decodePadding as invoked by Decode when the trailer read starts at
absolute stream offset pos.  bufio.Reader.Read returns data from at most
one Read of the underlying reader and, when its buffer is non-empty,
returns only buffered bytes; Decode's 14-byte header Read and the body's
ReadByte calls leave the 4096-byte buffer refilling exactly at stream
offsets that are multiples of 4096, so the 8-byte Read at offset pos
delivers n bytes as below (all remaining bytes up to 8 at a refill
boundary, otherwise at most the bytes left before the next boundary).
decodePadding ignores the returned count (decoder.go line 171) and
compares all 8 bytes of the zero-initialized padding slice with the end
marker. -/
def decodePaddingAt (pos : Nat) (bytes : List Nat) : Except DecErr Unit :=
  if bytes.length = 0 then .error .ioError
  else
    let n := if pos % 4096 = 0 then min 8 bytes.length
             else min 8 (min bytes.length (4096 - pos % 4096))
    let padding := bytes.take n ++ List.replicate (8 - n) 0
    if padding ≠ qoiEndMarker then .error .unexpectedEOF
    else if bytes.drop 8 ≠ [] then .error .invalidQoiSize
    else .ok ()

/-- The decoded image (the *image.NRGBA the decoder fills in row-major
order). -/
structure NImage where
  width : Nat
  height : Nat
  pixels : List Pixel
deriving DecidableEq, Repr

/-- Decode (decoder.go lines 206-220): header, body, padding.  The
padding read happens at the absolute stream offset just past the header
and body, i.e. at the number of bytes already consumed. -/
def Decode (bytes : List Nat) : Except DecErr NImage :=
  match decodeHeader bytes with
  | .error e => .error e
  | .ok (h, rest) =>
    match decodeLoop (h.width * h.height) decInit rest with
    | none => .error .ioError
    | some (pixels, _, rest2) =>
      match decodePaddingAt (bytes.length - rest2.length) rest2 with
      | .error e => .error e
      | .ok _ => .ok ⟨h.width, h.height, pixels⟩

/-- One pixel of the buffer-straddling image: pairwise-distinct colors
with alternating alpha 254, 253, 254, ..., so the encoder emits a fresh
RGBA literal chunk for every pixel. -/
def straddlePixel (i : Nat) : Pixel :=
  ⟨i % 256, i / 256, 0, 253 + (i + 1) % 2⟩

/-- 815 such pixels: 5 bytes per pixel, so the encoded file is
14 + 4075 + 8 = 4097 bytes and the trailer read starts at offset 4089,
7 bytes before the 4096-byte buffer refill boundary. -/
def straddlePixels : List Pixel := (List.range 815).map straddlePixel

/-- The 815x1 NRGBA image built from those pixels. -/
def straddleImage : Image := ⟨815, 1, true, straddlePixels⟩

end QOI

namespace QOI

/- ------------------------------------------------------------------ -/
/- Basic facts about the hash and the wrapping casts.                 -/
/- ------------------------------------------------------------------ -/

theorem hash_lt (c : Pixel) : hash c < 64 :=
  Nat.mod_lt _ (by decide)

theorem wrap8_emod (z : Int) : wrap8 z % 256 = z % 256 := by
  unfold wrap8; split <;> omega

theorem wrap8_lb (z : Int) : -128 ≤ wrap8 z := by
  unfold wrap8; split <;> omega

theorem wrap8_ub (z : Int) : wrap8 z ≤ 127 := by
  unfold wrap8; split <;> omega

theorem i8_emod (n : Nat) : i8 n % 256 = (n : Int) % 256 :=
  wrap8_emod n

/-- The wrapped int8 difference of two bytes is congruent to their true
difference mod 256. -/
theorem delta_emod (x p : Nat) :
    wrap8 (i8 x - i8 p) % 256 = ((x : Int) - (p : Int)) % 256 := by
  rw [wrap8_emod, Int.sub_emod, i8_emod, i8_emod, ← Int.sub_emod]

theorem u8_eval (z : Int) (h1 : 0 ≤ z) (h2 : z < 256) : (u8 z : Int) = z := by
  unfold u8; omega

/- ------------------------------------------------------------------ -/
/- Bit-level facts about the chunk bytes (finite checks).             -/
/- ------------------------------------------------------------------ -/

theorem runByteFacts : ∀ c, c < 62 →
    opRUN ||| c ≠ opRGB ∧ opRUN ||| c ≠ opRGBA ∧
    (opRUN ||| c) &&& maskOP ≠ opINDEX ∧ (opRUN ||| c) &&& maskOP ≠ opDIFF ∧
    (opRUN ||| c) &&& maskOP ≠ opLUMA ∧ (opRUN ||| c) &&& maskOP = opRUN ∧
    (opRUN ||| c) &&& mask6 = c ∧ opRUN ≤ opRUN ||| c ∧ opRUN ||| c ≤ 253 := by
  decide

theorem indexByteFacts : ∀ s, s < 64 →
    opINDEX ||| s = s ∧ s ≠ opRGB ∧ s ≠ opRGBA ∧
    s &&& maskOP = opINDEX ∧ s &&& mask6 = s := by
  decide

theorem diffByteFacts : ∀ a, a < 4 → ∀ b, b < 4 → ∀ c, c < 4 →
    opDIFF ||| (a <<< 4) ||| (b <<< 2) ||| c ≠ opRGB ∧
    opDIFF ||| (a <<< 4) ||| (b <<< 2) ||| c ≠ opRGBA ∧
    (opDIFF ||| (a <<< 4) ||| (b <<< 2) ||| c) &&& maskOP ≠ opINDEX ∧
    (opDIFF ||| (a <<< 4) ||| (b <<< 2) ||| c) &&& maskOP = opDIFF ∧
    ((opDIFF ||| (a <<< 4) ||| (b <<< 2) ||| c) >>> 4) &&& mask2 = a ∧
    ((opDIFF ||| (a <<< 4) ||| (b <<< 2) ||| c) >>> 2) &&& mask2 = b ∧
    ((opDIFF ||| (a <<< 4) ||| (b <<< 2) ||| c) >>> 0) &&& mask2 = c := by
  intro a ha b hb c hc
  interval_cases a <;> interval_cases b <;> interval_cases c <;> decide

theorem lumaB1Facts : ∀ m, m < 64 →
    opLUMA ||| m ≠ opRGB ∧ opLUMA ||| m ≠ opRGBA ∧
    (opLUMA ||| m) &&& maskOP ≠ opINDEX ∧ (opLUMA ||| m) &&& maskOP ≠ opDIFF ∧
    (opLUMA ||| m) &&& maskOP = opLUMA ∧ (opLUMA ||| m) &&& mask6 = m := by
  decide

theorem lumaB2Facts : ∀ x, x < 16 → ∀ y, y < 16 →
    (((x <<< 4) ||| y) >>> 4) &&& mask4 = x ∧
    (((x <<< 4) ||| y) >>> 0) &&& mask4 = y := by
  decide

/- ------------------------------------------------------------------ -/
/- Channel reconstruction arithmetic.                                 -/
/- ------------------------------------------------------------------ -/

theorem diff_recover (p x : Nat) (v : Int) (hp : p < 256) (hx : x < 256)
    (hmod : v % 256 = ((x : Int) - p) % 256) (h1 : -2 ≤ v) (h2 : v ≤ 1) :
    (p + (u8 (v + 2) + 254) % 256) % 256 = x := by
  unfold u8; omega

theorem luma_recover_g (p x : Nat) (v : Int) (hp : p < 256) (hx : x < 256)
    (hmod : v % 256 = ((x : Int) - p) % 256) (h1 : -32 ≤ v) (h2 : v ≤ 31) :
    (p + (u8 (v + 32) + 224) % 256) % 256 = x := by
  unfold u8; omega

theorem luma_recover_rb (p x : Nat) (vg d vx : Int) (hp : p < 256) (hx : x < 256)
    (hg1 : -32 ≤ vg) (hg2 : vg ≤ 31) (hd1 : -8 ≤ d) (hd2 : d ≤ 7)
    (hdm : d % 256 = (vx - vg) % 256) (hxm : vx % 256 = ((x : Int) - p) % 256) :
    (p + (((u8 (vg + 32) + 224) % 256 + 248) % 256 + u8 (d + 8)) % 256) % 256 = x := by
  unfold u8; omega

end QOI

namespace QOI

/- ------------------------------------------------------------------ -/
/- The encoder/decoder cache relation.                                -/
/-                                                                    -/
/- The decoder stores pxPrev into its cache when it reads a RUN chunk -/
/- (decoder.go line 160 runs for every chunk), while the encoder does -/
/- not touch its cache for run pixels.  The only value this can       -/
/- desynchronize is the seeded previous pixel (0,0,0,255), stored by  -/
/- the decoder at slot hash(seed) = 53 while the encoder still holds  -/
/- the initial zero pixel there.                                      -/
/- ------------------------------------------------------------------ -/

/-- Pointwise relation between the encoder cache and the decoder cache. -/
def CacheRel (ce cd : Nat → Pixel) : Prop :=
  ∀ s, cd s = ce s ∨ (s = hash seedPixel ∧ cd s = seedPixel ∧ ce s = zeroPixel)

/-- The encoder cache holds the previous pixel at its hash slot, unless the
previous pixel is still the seed and that slot is untouched. -/
def PrevOK (ce : Nat → Pixel) (pe : Pixel) : Prop :=
  ce (hash pe) = pe ∨ (pe = seedPixel ∧ ce (hash seedPixel) = zeroPixel)

theorem cacheRel_init : CacheRel initCache initCache :=
  fun _ => Or.inl rfl

theorem upd_self (c : Nat → Pixel) (i : Nat) (p : Pixel) : upd c i p i = p := by
  simp [upd]

theorem upd_other (c : Nat → Pixel) (i j : Nat) (p : Pixel) (h : j ≠ i) :
    upd c i p j = c j := by
  simp [upd, h]

theorem cacheRel_store_both {ce cd : Nat → Pixel} (h : CacheRel ce cd)
    (s0 : Nat) (px : Pixel) : CacheRel (upd ce s0 px) (upd cd s0 px) := by
  intro s
  by_cases hs : s = s0
  · subst hs; left; rw [upd_self, upd_self]
  · rw [upd_other _ _ _ _ hs, upd_other _ _ _ _ hs]; exact h s

theorem cacheRel_store_hit {ce cd : Nat → Pixel} (h : CacheRel ce cd)
    (s0 : Nat) (px : Pixel) (hce : ce s0 = px) : CacheRel ce (upd cd s0 px) := by
  intro s
  by_cases hs : s = s0
  · subst hs; left; rw [upd_self, hce]
  · rw [upd_other _ _ _ _ hs]; exact h s

theorem cacheRel_run_store {ce cd : Nat → Pixel} {pe : Pixel}
    (h : CacheRel ce cd) (hp : PrevOK ce pe) :
    CacheRel ce (upd cd (hash pe) pe) := by
  rcases hp with hp | ⟨hpe, hz⟩
  · exact cacheRel_store_hit h _ _ hp
  · subst hpe
    intro s
    by_cases hs : s = hash seedPixel
    · subst hs; right; exact ⟨rfl, upd_self _ _ _, hz⟩
    · rw [upd_other _ _ _ _ hs]; exact h s

/-- When the encoder sees a cache hit for a fresh pixel, the decoder's
cache agrees at that slot, so the INDEX chunk reproduces the pixel. -/
theorem cacheRel_lookup {ce cd : Nat → Pixel} (h : CacheRel ce cd)
    (px : Pixel) (hce : ce (hash px) = px) : cd (hash px) = px := by
  rcases h (hash px) with h1 | ⟨hs, _, hsz⟩
  · rw [h1, hce]
  · rw [hce] at hsz
    subst hsz
    exact absurd hs (by decide)

/- ------------------------------------------------------------------ -/
/- List bookkeeping.                                                  -/
/- ------------------------------------------------------------------ -/

theorem chunksBytes_append (l1 l2 : List Chunk) :
    chunksBytes (l1 ++ l2) = chunksBytes l1 ++ chunksBytes l2 := by
  induction l1 with
  | nil => rfl
  | cons c cs ih => simp [chunksBytes, ih]

theorem replicate_append_cons {α : Type} (n : Nat) (a : α) (l : List α) :
    List.replicate n a ++ a :: l = List.replicate (n + 1) a ++ l := by
  rw [List.replicate_succ']
  simp

/- ------------------------------------------------------------------ -/
/- Decoder stepping lemmas.                                           -/
/- ------------------------------------------------------------------ -/

/-- A pending run of k pixels replays the previous pixel k times without
consuming bytes or touching the cache. -/
theorem decodeLoop_run (k : Nat) : ∀ (n : Nat) (cache : Nat → Pixel) (pe : Pixel)
    (bs : List Nat),
    decodeLoop (k + n) ⟨cache, pe, k⟩ bs
      = (decodeLoop n ⟨cache, pe, 0⟩ bs).map
          (fun x => (List.replicate k pe ++ x.1, x.2)) := by
  induction k with
  | zero =>
    intro n cache pe bs
    rw [Nat.zero_add]
    cases h : decodeLoop n ⟨cache, pe, 0⟩ bs with
    | none => simp
    | some a => simp
  | succ k ih =>
    intro n cache pe bs
    have h1 : k + 1 + n = (k + n) + 1 := by omega
    rw [h1]
    show decodeLoop ((k + n) + 1) ⟨cache, pe, k + 1⟩ bs = _
    rw [decodeLoop]
    rw [if_pos (Nat.succ_pos k : (DecSt.mk cache pe (k + 1)).run > 0)]
    show (match decodeLoop (k + n) ⟨cache, pe, k⟩ bs with
          | some (out, st2, rest) => some (pe :: out, st2, rest)
          | none => none) = _
    rw [ih]
    cases h : decodeLoop n ⟨cache, pe, 0⟩ bs with
    | none => simp
    | some a => simp [List.replicate_succ]

end QOI

namespace QOI

/-- Generic continuation: once `decodeStep` resolves a fresh pixel with no
run, the loop stores it, emits it, and continues. -/
theorem decodeLoop_cont (n : Nat) (cd : Nat → Pixel) (pe : Pixel) (bs : List Nat)
    (px : Pixel) (bs2 : List Nat)
    (hstep : decodeStep ⟨cd, pe, 0⟩ bs = some (px, 0, bs2)) :
    decodeLoop (n + 1) ⟨cd, pe, 0⟩ bs
      = (decodeLoop n ⟨upd cd (hash px) px, px, 0⟩ bs2).map
          (fun x => (px :: x.1, x.2)) := by
  rw [decodeLoop]
  rw [if_neg (Nat.lt_irrefl 0 : ¬ (DecSt.mk cd pe 0).run > 0)]
  rw [hstep]
  cases h : decodeLoop n ⟨upd cd (hash px) px, px, 0⟩ bs2 with
  | none => simp [h]
  | some a => simp [h]

/-- Reading a RUN chunk of run length r: the decoder replays the previous
pixel r times, stores it in the cache once, and consumes one byte. -/
theorem decodeLoop_runChunk (r n : Nat) (cd : Nat → Pixel) (pe : Pixel)
    (bs : List Nat) (h1 : 0 < r) (h2 : r ≤ 62) :
    decodeLoop (r + n) ⟨cd, pe, 0⟩ ((opRUN ||| (r - 1)) :: bs)
      = (decodeLoop n ⟨upd cd (hash pe) pe, pe, 0⟩ bs).map
          (fun x => (List.replicate r pe ++ x.1, x.2)) := by
  obtain ⟨c, rfl⟩ : ∃ c, r = c + 1 := ⟨r - 1, by omega⟩
  have hc : c < 62 := by omega
  obtain ⟨hA, hB, hC, hD, hE, hF, hG, -, -⟩ := runByteFacts c hc
  have harith : c + 1 + n = (c + n) + 1 := by omega
  rw [harith]
  rw [decodeLoop]
  rw [if_neg (Nat.lt_irrefl 0 : ¬ (DecSt.mk cd pe 0).run > 0)]
  show (match decodeStep ⟨cd, pe, 0⟩ ((opRUN ||| (c + 1 - 1)) :: bs) with
        | some (px, drun, bs2) =>
          match decodeLoop (c + n) ⟨upd cd (hash px) px, px, drun⟩ bs2 with
          | some (out, st2, rest) => some (px :: out, st2, rest)
          | none => none
        | none => none) = _
  have hstep : decodeStep ⟨cd, pe, 0⟩ ((opRUN ||| (c + 1 - 1)) :: bs)
      = some (pe, c, bs) := by
    show decodeStep ⟨cd, pe, 0⟩ ((opRUN ||| c) :: bs) = some (pe, c, bs)
    rw [decodeStep.eq_def]
    simp only []
    rw [if_neg hA, if_neg hB, if_neg hC, if_neg hD, if_neg hE, if_pos hF, hG]
  rw [hstep]
  show (match decodeLoop (c + n) ⟨upd cd (hash pe) pe, pe, c⟩ bs with
        | some (out, st2, rest) => some (pe :: out, st2, rest)
        | none => none) = _
  rw [decodeLoop_run c n]
  cases h : decodeLoop n ⟨upd cd (hash pe) pe, pe, 0⟩ bs with
  | none => simp [h]
  | some a => simp [h, List.replicate_succ]

/-- Reading an INDEX chunk for a cached pixel. -/
theorem decodeStep_index (cd : Nat → Pixel) (pe : Pixel) (s : Nat) (hs : s < 64)
    (bs : List Nat) :
    decodeStep ⟨cd, pe, 0⟩ ((opINDEX ||| s) :: bs) = some (cd s, 0, bs) := by
  obtain ⟨hEq, hA, hB, hC, hD⟩ := indexByteFacts s hs
  rw [hEq]
  rw [decodeStep.eq_def]
  simp only []
  rw [if_neg hA, if_neg hB, if_pos hC, hD]

/-- Reading a DIFF chunk built by the encoder reconstructs the pixel. -/
theorem decodeStep_diff (cd : Nat → Pixel) (pe px : Pixel) (bs : List Nat)
    (hpe : wfPixel pe) (hpx : wfPixel px) (ha : px.a = pe.a)
    (vr vg vb : Int)
    (hvr : vr = wrap8 (i8 px.r - i8 pe.r))
    (hvg : vg = wrap8 (i8 px.g - i8 pe.g))
    (hvb : vb = wrap8 (i8 px.b - i8 pe.b))
    (hr1 : -2 ≤ vr) (hr2 : vr ≤ 1) (hg1 : -2 ≤ vg) (hg2 : vg ≤ 1)
    (hb1 : -2 ≤ vb) (hb2 : vb ≤ 1) :
    decodeStep ⟨cd, pe, 0⟩
        ((opDIFF ||| (u8 (vr + 2) <<< 4) ||| (u8 (vg + 2) <<< 2) ||| u8 (vb + 2)) :: bs)
      = some (px, 0, bs) := by
  have hua : u8 (vr + 2) < 4 := by unfold u8; omega
  have hub : u8 (vg + 2) < 4 := by unfold u8; omega
  have huc : u8 (vb + 2) < 4 := by unfold u8; omega
  obtain ⟨hA, hB, hC, hD, hXa, hXb, hXc⟩ :=
    diffByteFacts (u8 (vr + 2)) hua (u8 (vg + 2)) hub (u8 (vb + 2)) huc
  rw [decodeStep.eq_def]
  simp only []
  rw [if_neg hA, if_neg hB, if_neg hC, if_pos hD, hXa, hXb, hXc]
  have hrr : (pe.r + (u8 (vr + 2) + 254) % 256) % 256 = px.r :=
    diff_recover pe.r px.r vr hpe.1 hpx.1
      (by rw [hvr]; exact delta_emod px.r pe.r) hr1 hr2
  have hgg : (pe.g + (u8 (vg + 2) + 254) % 256) % 256 = px.g :=
    diff_recover pe.g px.g vg hpe.2.1 hpx.2.1
      (by rw [hvg]; exact delta_emod px.g pe.g) hg1 hg2
  have hbb : (pe.b + (u8 (vb + 2) + 254) % 256) % 256 = px.b :=
    diff_recover pe.b px.b vb hpe.2.2.1 hpx.2.2.1
      (by rw [hvb]; exact delta_emod px.b pe.b) hb1 hb2
  rw [hrr, hgg, hbb, ← ha]

/-- Reading a LUMA chunk built by the encoder reconstructs the pixel. -/
theorem decodeStep_luma (cd : Nat → Pixel) (pe px : Pixel) (bs : List Nat)
    (hpe : wfPixel pe) (hpx : wfPixel px) (ha : px.a = pe.a)
    (vr vg vb vgR vgB : Int)
    (hvr : vr = wrap8 (i8 px.r - i8 pe.r))
    (hvg : vg = wrap8 (i8 px.g - i8 pe.g))
    (hvb : vb = wrap8 (i8 px.b - i8 pe.b))
    (hvgR : vgR = wrap8 (vr - vg))
    (hvgB : vgB = wrap8 (vb - vg))
    (hR1 : -8 ≤ vgR) (hR2 : vgR ≤ 7) (hg1 : -32 ≤ vg) (hg2 : vg ≤ 31)
    (hB1 : -8 ≤ vgB) (hB2 : vgB ≤ 7) :
    decodeStep ⟨cd, pe, 0⟩
        ((opLUMA ||| u8 (vg + 32)) :: ((u8 (vgR + 8) <<< 4) ||| u8 (vgB + 8)) :: bs)
      = some (px, 0, bs) := by
  have hum : u8 (vg + 32) < 64 := by unfold u8; omega
  have hux : u8 (vgR + 8) < 16 := by unfold u8; omega
  have huy : u8 (vgB + 8) < 16 := by unfold u8; omega
  obtain ⟨hA, hB, hC, hD, hE, hM⟩ := lumaB1Facts (u8 (vg + 32)) hum
  obtain ⟨hXx, hXy⟩ := lumaB2Facts (u8 (vgR + 8)) hux (u8 (vgB + 8)) huy
  rw [decodeStep.eq_def]
  simp only []
  rw [if_neg hA, if_neg hB, if_neg hC, if_neg hD, if_pos hE, hM, hXx, hXy]
  have hrr : (pe.r + (((u8 (vg + 32) + 224) % 256 + 248) % 256 + u8 (vgR + 8)) % 256) % 256
      = px.r :=
    luma_recover_rb pe.r px.r vg vgR vr hpe.1 hpx.1 hg1 hg2 hR1 hR2
      (by rw [hvgR, hvr, hvg]; exact wrap8_emod _)
      (by rw [hvr]; exact delta_emod px.r pe.r)
  have hgg : (pe.g + (u8 (vg + 32) + 224) % 256) % 256 = px.g :=
    luma_recover_g pe.g px.g vg hpe.2.1 hpx.2.1
      (by rw [hvg]; exact delta_emod px.g pe.g) hg1 hg2
  have hbb : (pe.b + (((u8 (vg + 32) + 224) % 256 + 248) % 256 + u8 (vgB + 8)) % 256) % 256
      = px.b :=
    luma_recover_rb pe.b px.b vg vgB vb hpe.2.2.1 hpx.2.2.1 hg1 hg2 hB1 hB2
      (by rw [hvgB, hvb, hvg]; exact wrap8_emod _)
      (by rw [hvb]; exact delta_emod px.b pe.b)
  rw [hrr, hgg, hbb, ← ha]

/-- Reading an RGB chunk sets R,G,B and keeps alpha. -/
theorem decodeStep_rgb (cd : Nat → Pixel) (pe px : Pixel) (bs : List Nat)
    (ha : px.a = pe.a) :
    decodeStep ⟨cd, pe, 0⟩ (opRGB :: px.r :: px.g :: px.b :: bs)
      = some (px, 0, bs) := by
  rw [decodeStep.eq_def]
  simp only []
  rw [if_pos trivial, ← ha]

/-- Reading an RGBA chunk sets all four channels. -/
theorem decodeStep_rgba (cd : Nat → Pixel) (pe px : Pixel) (bs : List Nat) :
    decodeStep ⟨cd, pe, 0⟩ (opRGBA :: px.r :: px.g :: px.b :: px.a :: bs)
      = some (px, 0, bs) := by
  rw [decodeStep.eq_def]
  simp only []
  rw [if_neg (by decide : ¬ (opRGBA = opRGB)), if_pos trivial]

end QOI

namespace QOI

/- ------------------------------------------------------------------ -/
/- Branch equations of the encoder loop.                              -/
/- ------------------------------------------------------------------ -/

theorem encodeLoop_runA (px : Pixel) (rest : List Pixel) (st : EncSt)
    (heq : px = st.prev) (hcond : st.run + 1 = qoiMaxRunSize ∨ rest = []) :
    encodeLoop (px :: rest) st
      = (Chunk.run (st.run + 1) :: (encodeLoop rest ⟨st.cache, px, 0⟩).1,
         (encodeLoop rest ⟨st.cache, px, 0⟩).2) := by
  rw [encodeLoop.eq_def]
  simp only []
  rw [if_pos heq, if_pos hcond]

theorem encodeLoop_runB (px : Pixel) (rest : List Pixel) (st : EncSt)
    (heq : px = st.prev) (hcond : ¬ (st.run + 1 = qoiMaxRunSize ∨ rest = [])) :
    encodeLoop (px :: rest) st = encodeLoop rest ⟨st.cache, px, st.run + 1⟩ := by
  rw [encodeLoop.eq_def]
  simp only []
  rw [if_pos heq, if_neg hcond]

theorem encodeLoop_hit (px : Pixel) (rest : List Pixel) (st : EncSt)
    (heq : ¬ px = st.prev) (hhit : st.cache (hash px) = px) :
    encodeLoop (px :: rest) st
      = ((if st.run > 0 then [Chunk.run st.run] else [])
          ++ Chunk.index (hash px) :: (encodeLoop rest ⟨st.cache, px, 0⟩).1,
         (encodeLoop rest ⟨st.cache, px, 0⟩).2) := by
  rw [encodeLoop.eq_def]
  simp only []
  rw [if_neg heq, if_pos hhit]

theorem encodeLoop_miss (px : Pixel) (rest : List Pixel) (st : EncSt)
    (heq : ¬ px = st.prev) (hmiss : ¬ st.cache (hash px) = px) :
    encodeLoop (px :: rest) st
      = ((if st.run > 0 then [Chunk.run st.run] else [])
          ++ (if px.a = st.prev.a then
                if wrap8 (i8 px.r - i8 st.prev.r) > -3 ∧ wrap8 (i8 px.r - i8 st.prev.r) < 2 ∧
                   wrap8 (i8 px.g - i8 st.prev.g) > -3 ∧ wrap8 (i8 px.g - i8 st.prev.g) < 2 ∧
                   wrap8 (i8 px.b - i8 st.prev.b) > -3 ∧ wrap8 (i8 px.b - i8 st.prev.b) < 2 then
                  Chunk.diff (opDIFF ||| (u8 (wrap8 (i8 px.r - i8 st.prev.r) + 2) <<< 4)
                    ||| (u8 (wrap8 (i8 px.g - i8 st.prev.g) + 2) <<< 2)
                    ||| u8 (wrap8 (i8 px.b - i8 st.prev.b) + 2))
                else if wrap8 (wrap8 (i8 px.r - i8 st.prev.r) - wrap8 (i8 px.g - i8 st.prev.g)) > -9 ∧
                        wrap8 (wrap8 (i8 px.r - i8 st.prev.r) - wrap8 (i8 px.g - i8 st.prev.g)) < 8 ∧
                        wrap8 (i8 px.g - i8 st.prev.g) > -33 ∧ wrap8 (i8 px.g - i8 st.prev.g) < 32 ∧
                        wrap8 (wrap8 (i8 px.b - i8 st.prev.b) - wrap8 (i8 px.g - i8 st.prev.g)) > -9 ∧
                        wrap8 (wrap8 (i8 px.b - i8 st.prev.b) - wrap8 (i8 px.g - i8 st.prev.g)) < 8 then
                  Chunk.luma (opLUMA ||| u8 (wrap8 (i8 px.g - i8 st.prev.g) + 32))
                    ((u8 (wrap8 (wrap8 (i8 px.r - i8 st.prev.r) - wrap8 (i8 px.g - i8 st.prev.g)) + 8) <<< 4)
                      ||| u8 (wrap8 (wrap8 (i8 px.b - i8 st.prev.b) - wrap8 (i8 px.g - i8 st.prev.g)) + 8))
                else
                  Chunk.rgb px.r px.g px.b
              else
                Chunk.rgba px.r px.g px.b px.a)
            :: (encodeLoop rest ⟨upd st.cache (hash px) px, px, 0⟩).1,
         (encodeLoop rest ⟨upd st.cache (hash px) px, px, 0⟩).2) := by
  rw [encodeLoop.eq_def]
  simp only []
  rw [if_neg heq, if_neg hmiss]

/-- Consuming the pending-run flush (if any) emitted before a fresh pixel. -/
theorem decodeLoop_flush (run n : Nat) (cd : Nat → Pixel) (pe : Pixel)
    (bs : List Nat) (hrun : run ≤ 61) {ce : Nat → Pixel}
    (hrel : CacheRel ce cd) (hprev : PrevOK ce pe) :
    ∃ cd1, decodeLoop (run + n) ⟨cd, pe, 0⟩
        (chunksBytes (if run > 0 then [Chunk.run run] else []) ++ bs)
      = (decodeLoop n ⟨cd1, pe, 0⟩ bs).map
          (fun x => (List.replicate run pe ++ x.1, x.2))
      ∧ CacheRel ce cd1 := by
  by_cases h : run > 0
  · refine ⟨upd cd (hash pe) pe, ?_, cacheRel_run_store hrel hprev⟩
    rw [if_pos h]
    show decodeLoop (run + n) ⟨cd, pe, 0⟩ (((opRUN ||| (run - 1)) :: []) ++ bs) = _
    rw [List.cons_append, List.nil_append]
    exact decodeLoop_runChunk run n cd pe bs h (by omega)
  · have h0 : run = 0 := by omega
    subst h0
    refine ⟨cd, ?_, hrel⟩
    rw [if_neg h]
    show decodeLoop (0 + n) ⟨cd, pe, 0⟩ ([] ++ bs) = _
    rw [List.nil_append, Nat.zero_add]
    cases hres : decodeLoop n ⟨cd, pe, 0⟩ bs with
    | none => simp [hres]
    | some a => simp [hres]

end QOI

namespace QOI

/-- Main simulation: run on the encoder's chunk stream, the decoder
reproduces the pending run plus the remaining pixels exactly, consumes
exactly the encoder's bytes, and its final cache stays in the CacheRel
relation with the encoder's final cache. -/
theorem encDecSim (ps : List Pixel) : ∀ (stE : EncSt) (cd : Nat → Pixel) (tail : List Nat),
    wfPixels ps → wfPixel stE.prev → stE.run ≤ 61 → (ps = [] → stE.run = 0) →
    CacheRel stE.cache cd → PrevOK stE.cache stE.prev →
    ∃ cd2,
      decodeLoop (stE.run + ps.length) ⟨cd, stE.prev, 0⟩
          (chunksBytes (encodeLoop ps stE).1 ++ tail)
        = some (List.replicate stE.run stE.prev ++ ps,
                ⟨cd2, (encodeLoop ps stE).2.prev, 0⟩, tail)
      ∧ CacheRel (encodeLoop ps stE).2.cache cd2
      ∧ PrevOK (encodeLoop ps stE).2.cache (encodeLoop ps stE).2.prev := by
  induction ps with
  | nil =>
    intro stE cd tail _ _ _ hrun0 hrel hprev
    rw [hrun0 rfl]
    exact ⟨cd, by simp [encodeLoop, chunksBytes, decodeLoop], hrel, hprev⟩
  | cons px rest ih =>
    intro stE cd tail hwf hwfprev hrun hne hrel hprev
    have hwfpx : wfPixel px := hwf px (by simp)
    have hwfrest : wfPixels rest := fun p hp => hwf p (by simp [hp])
    by_cases heq : px = stE.prev
    · subst heq
      by_cases hcond : stE.run + 1 = qoiMaxRunSize ∨ rest = []
      · -- run flushed now (hit 62 or last pixel)
        rw [encodeLoop_runA stE.prev rest stE rfl hcond]
        simp only []
        obtain ⟨cd2, hdec, hrel2, hprev2⟩ :=
          ih ⟨stE.cache, stE.prev, 0⟩ (upd cd (hash stE.prev) stE.prev) tail hwfrest hwfprev
            (Nat.zero_le 61) (fun _ => rfl) (cacheRel_run_store hrel hprev) hprev
        simp only [] at hdec
        rw [Nat.zero_add] at hdec
        simp only [List.replicate_zero, List.nil_append] at hdec
        refine ⟨cd2, ?_, hrel2, hprev2⟩
        have hlen : stE.run + (stE.prev :: rest).length = (stE.run + 1) + rest.length := by
          simp [List.length_cons]
          omega
        rw [hlen]
        have hbytes : chunksBytes (Chunk.run (stE.run + 1)
              :: (encodeLoop rest ⟨stE.cache, stE.prev, 0⟩).1) ++ tail
            = (opRUN ||| (stE.run + 1 - 1))
              :: (chunksBytes (encodeLoop rest ⟨stE.cache, stE.prev, 0⟩).1 ++ tail) := by
          simp [chunksBytes, chunkBytes]
        rw [hbytes]
        rw [decodeLoop_runChunk (stE.run + 1) rest.length cd stE.prev
          (chunksBytes (encodeLoop rest ⟨stE.cache, stE.prev, 0⟩).1 ++ tail)
          (Nat.succ_pos _) (by omega)]
        rw [hdec]
        simp [replicate_append_cons]
      · -- run keeps pending
        rw [encodeLoop_runB stE.prev rest stE rfl hcond]
        push_neg at hcond
        obtain ⟨cd2, hdec, hrel2, hprev2⟩ :=
          ih ⟨stE.cache, stE.prev, stE.run + 1⟩ cd tail hwfrest hwfprev
            (by have h62 := hcond.1; unfold qoiMaxRunSize at h62; omega : stE.run + 1 ≤ 61)
            (fun hrest => absurd hrest hcond.2) hrel hprev
        simp only [] at hdec
        refine ⟨cd2, ?_, hrel2, hprev2⟩
        have hlen : stE.run + (stE.prev :: rest).length = (stE.run + 1) + rest.length := by
          simp [List.length_cons]
          omega
        rw [hlen]
        rw [hdec]
        rw [replicate_append_cons]
    · by_cases hhit : stE.cache (hash px) = px
      · -- INDEX chunk
        rw [encodeLoop_hit px rest stE heq hhit]
        simp only []
        have hlen : stE.run + (px :: rest).length = stE.run + (rest.length + 1) := by
          simp [List.length_cons]
        rw [hlen]
        obtain ⟨cd1, hflush, hrel1⟩ :=
          decodeLoop_flush stE.run (rest.length + 1) cd stE.prev
            ((opINDEX ||| hash px)
              :: (chunksBytes (encodeLoop rest ⟨stE.cache, px, 0⟩).1 ++ tail))
            hrun hrel hprev
        have hbytes : chunksBytes ((if stE.run > 0 then [Chunk.run stE.run] else [])
              ++ Chunk.index (hash px) :: (encodeLoop rest ⟨stE.cache, px, 0⟩).1) ++ tail
            = chunksBytes (if stE.run > 0 then [Chunk.run stE.run] else [])
              ++ ((opINDEX ||| hash px)
                :: (chunksBytes (encodeLoop rest ⟨stE.cache, px, 0⟩).1 ++ tail)) := by
          rw [chunksBytes_append]
          simp [chunksBytes, chunkBytes, List.append_assoc]
        rw [hbytes, hflush]
        have hlook : cd1 (hash px) = px := cacheRel_lookup hrel1 px hhit
        have hstep := decodeStep_index cd1 stE.prev (hash px) (hash_lt px)
          (chunksBytes (encodeLoop rest ⟨stE.cache, px, 0⟩).1 ++ tail)
        rw [hlook] at hstep
        rw [decodeLoop_cont rest.length cd1 stE.prev _ px _ hstep]
        obtain ⟨cd2, hdec, hrel2, hprev2⟩ :=
          ih ⟨stE.cache, px, 0⟩ (upd cd1 (hash px) px) tail hwfrest hwfpx
            (Nat.zero_le 61) (fun _ => rfl) (cacheRel_store_hit hrel1 _ _ hhit)
            (Or.inl hhit)
        simp only [] at hdec
        rw [Nat.zero_add] at hdec
        simp only [List.replicate_zero, List.nil_append] at hdec
        refine ⟨cd2, ?_, hrel2, hprev2⟩
        rw [hdec]
        simp
      · -- fresh pixel stored in the cache: DIFF / LUMA / RGB / RGBA
        have key : ∀ C : Chunk,
            (∀ (cdx : Nat → Pixel) (bs : List Nat),
                decodeStep ⟨cdx, stE.prev, 0⟩ (chunkBytes C ++ bs) = some (px, 0, bs)) →
            ∃ cd2,
              decodeLoop (stE.run + (rest.length + 1)) ⟨cd, stE.prev, 0⟩
                  (chunksBytes ((if stE.run > 0 then [Chunk.run stE.run] else [])
                    ++ C :: (encodeLoop rest ⟨upd stE.cache (hash px) px, px, 0⟩).1) ++ tail)
                = some (List.replicate stE.run stE.prev ++ px :: rest,
                    ⟨cd2, (encodeLoop rest ⟨upd stE.cache (hash px) px, px, 0⟩).2.prev, 0⟩, tail)
              ∧ CacheRel (encodeLoop rest ⟨upd stE.cache (hash px) px, px, 0⟩).2.cache cd2
              ∧ PrevOK (encodeLoop rest ⟨upd stE.cache (hash px) px, px, 0⟩).2.cache
                  (encodeLoop rest ⟨upd stE.cache (hash px) px, px, 0⟩).2.prev := by
          intro C hC
          obtain ⟨cd1, hflush, hrel1⟩ :=
            decodeLoop_flush stE.run (rest.length + 1) cd stE.prev
              (chunkBytes C
                ++ (chunksBytes (encodeLoop rest ⟨upd stE.cache (hash px) px, px, 0⟩).1 ++ tail))
              hrun hrel hprev
          have hbytes : chunksBytes ((if stE.run > 0 then [Chunk.run stE.run] else [])
                ++ C :: (encodeLoop rest ⟨upd stE.cache (hash px) px, px, 0⟩).1) ++ tail
              = chunksBytes (if stE.run > 0 then [Chunk.run stE.run] else [])
                ++ (chunkBytes C
                  ++ (chunksBytes (encodeLoop rest ⟨upd stE.cache (hash px) px, px, 0⟩).1 ++ tail)) := by
            rw [chunksBytes_append]
            simp [chunksBytes, List.append_assoc]
          rw [hbytes, hflush]
          rw [decodeLoop_cont rest.length cd1 stE.prev _ px _ (hC cd1 _)]
          obtain ⟨cd2, hdec, hrel2, hprev2⟩ :=
            ih ⟨upd stE.cache (hash px) px, px, 0⟩ (upd cd1 (hash px) px) tail hwfrest hwfpx
              (Nat.zero_le 61) (fun _ => rfl) (cacheRel_store_both hrel1 (hash px) px)
              (Or.inl (upd_self stE.cache (hash px) px))
          simp only [] at hdec
          rw [Nat.zero_add] at hdec
          simp only [List.replicate_zero, List.nil_append] at hdec
          refine ⟨cd2, ?_, hrel2, hprev2⟩
          rw [hdec]
          simp
        rw [encodeLoop_miss px rest stE heq hhit]
        simp only []
        have hlen : stE.run + (px :: rest).length = stE.run + (rest.length + 1) := by
          simp [List.length_cons]
        rw [hlen]
        by_cases halpha : px.a = stE.prev.a
        · rw [if_pos halpha]
          by_cases hdg : wrap8 (i8 px.r - i8 stE.prev.r) > -3 ∧ wrap8 (i8 px.r - i8 stE.prev.r) < 2 ∧
              wrap8 (i8 px.g - i8 stE.prev.g) > -3 ∧ wrap8 (i8 px.g - i8 stE.prev.g) < 2 ∧
              wrap8 (i8 px.b - i8 stE.prev.b) > -3 ∧ wrap8 (i8 px.b - i8 stE.prev.b) < 2
          · rw [if_pos hdg]
            exact key _ (fun cdx bs => decodeStep_diff cdx stE.prev px bs hwfprev hwfpx halpha
              (wrap8 (i8 px.r - i8 stE.prev.r)) (wrap8 (i8 px.g - i8 stE.prev.g))
              (wrap8 (i8 px.b - i8 stE.prev.b)) rfl rfl rfl
              (by omega) (by omega) (by omega) (by omega) (by omega) (by omega))
          · rw [if_neg hdg]
            by_cases hlg : wrap8 (wrap8 (i8 px.r - i8 stE.prev.r) - wrap8 (i8 px.g - i8 stE.prev.g)) > -9 ∧
                wrap8 (wrap8 (i8 px.r - i8 stE.prev.r) - wrap8 (i8 px.g - i8 stE.prev.g)) < 8 ∧
                wrap8 (i8 px.g - i8 stE.prev.g) > -33 ∧ wrap8 (i8 px.g - i8 stE.prev.g) < 32 ∧
                wrap8 (wrap8 (i8 px.b - i8 stE.prev.b) - wrap8 (i8 px.g - i8 stE.prev.g)) > -9 ∧
                wrap8 (wrap8 (i8 px.b - i8 stE.prev.b) - wrap8 (i8 px.g - i8 stE.prev.g)) < 8
            · rw [if_pos hlg]
              exact key _ (fun cdx bs => decodeStep_luma cdx stE.prev px bs hwfprev hwfpx halpha
                (wrap8 (i8 px.r - i8 stE.prev.r)) (wrap8 (i8 px.g - i8 stE.prev.g))
                (wrap8 (i8 px.b - i8 stE.prev.b))
                (wrap8 (wrap8 (i8 px.r - i8 stE.prev.r) - wrap8 (i8 px.g - i8 stE.prev.g)))
                (wrap8 (wrap8 (i8 px.b - i8 stE.prev.b) - wrap8 (i8 px.g - i8 stE.prev.g)))
                rfl rfl rfl rfl rfl
                (by omega) (by omega) (by omega) (by omega) (by omega) (by omega))
            · rw [if_neg hlg]
              exact key _ (fun cdx bs => decodeStep_rgb cdx stE.prev px bs halpha)
        · rw [if_neg halpha]
          exact key _ (fun cdx bs => decodeStep_rgba cdx stE.prev px bs)

/- ------------------------------------------------------------------ -/
/- Header and trailer plumbing for the round trip.                    -/
/- ------------------------------------------------------------------ -/

theorem i64_small (n : Nat) (h : n < 9223372036854775808) : i64 n = (n : Int) := by
  unfold i64
  rw [Nat.mod_eq_of_lt (by omega)]
  rw [if_pos h]

theorem headerBytes_eq (w h : Nat) : headerBytes w h
    = [113, 111, 105, 102,
       w / 16777216 % 256, w / 65536 % 256, w / 256 % 256, w % 256,
       h / 16777216 % 256, h / 65536 % 256, h / 256 % 256, h % 256, 4, 0] := rfl

/-- decodeHeader evaluated on any stream of at least 14 bytes. -/
theorem decodeHeader_cons (b0 b1 b2 b3 b4 b5 b6 b7 b8 b9 b10 b11 b12 b13 : Nat)
    (rest : List Nat) :
    decodeHeader (b0 :: b1 :: b2 :: b3 :: b4 :: b5 :: b6 :: b7 :: b8 :: b9 :: b10
        :: b11 :: b12 :: b13 :: rest)
      = (if b12 < 3 ∨ b12 > 4 ∨ b13 > 1 ∨ [b0, b1, b2, b3] ≠ qoiMagic then
           .error .notValidQoiFile
         else if ((b4 * 256 + b5) * 256 + b6) * 256 + b7 = 0 ∨
             ((b8 * 256 + b9) * 256 + b10) * 256 + b11 = 0 ∨
             i64 ((((b4 * 256 + b5) * 256 + b6) * 256 + b7) *
               (((b8 * 256 + b9) * 256 + b10) * 256 + b11)) > (qoiMaxPixels : Int) then
           .error .imageSizeInvalid
         else .ok (⟨((b4 * 256 + b5) * 256 + b6) * 256 + b7,
                    ((b8 * 256 + b9) * 256 + b10) * 256 + b11, b12, b13⟩, rest)) := rfl

/-- The header written by the encoder parses back to the same geometry. -/
theorem decodeHeader_encoded (w h : Nat) (hw : 0 < w) (hh : 0 < h)
    (hbound : w * h ≤ 400000000) (rest : List Nat) :
    decodeHeader (headerBytes w h ++ rest) = .ok (⟨w, h, 4, 0⟩, rest) := by
  have hw32 : w < 4294967296 := by
    have h1 : w ≤ w * h := Nat.le_mul_of_pos_right w hh
    omega
  have hh32 : h < 4294967296 := by
    have h1 : h ≤ w * h := Nat.le_mul_of_pos_left h hw
    omega
  have hwparse : ((w / 16777216 % 256 * 256 + w / 65536 % 256) * 256 + w / 256 % 256) * 256
      + w % 256 = w := by omega
  have hhparse : ((h / 16777216 % 256 * 256 + h / 65536 % 256) * 256 + h / 256 % 256) * 256
      + h % 256 = h := by omega
  rw [headerBytes_eq]
  simp only [List.cons_append, List.nil_append]
  rw [decodeHeader_cons]
  rw [hwparse, hhparse]
  rw [if_neg (by decide)]
  rw [if_neg (by rw [i64_small (w * h) (by omega)]; unfold qoiMaxPixels; omega)]

/-- The exact end marker satisfies decodePadding. -/
theorem decodePadding_marker : decodePadding qoiEndMarker = .ok () := rfl

/-- The encoder succeeds on NRGBA images with valid geometry and emits
header, body and end marker. -/
theorem Encode_ok (m : Image) (hn : m.nrgba = true) (hw : 0 < m.width)
    (hh : 0 < m.height) (hbound : m.width * m.height ≤ 400000000) :
    Encode m = (headerBytes m.width m.height
        ++ chunksBytes (encodeLoop m.pixels encInit).1 ++ qoiEndMarker, none) := by
  unfold Encode
  rw [if_neg (by rw [hn]; exact fun hcon => Bool.noConfusion hcon)]
  rw [if_neg (by rw [i64_small (m.width * m.height) (by omega)]; unfold qoiMaxPixels; omega)]

end QOI

namespace QOI

/-- When the 8-byte trailer read does not stop at a 4096-byte buffer
refill boundary, the position-aware decodePaddingAt agrees with
decodePadding. -/
theorem decodePaddingAt_eq (pos : Nat) (bytes : List Nat)
    (h : pos % 4096 = 0 ∨ 8 ≤ 4096 - pos % 4096) :
    decodePaddingAt pos bytes = decodePadding bytes := by
  unfold decodePaddingAt decodePadding
  by_cases h0 : bytes.length = 0
  · rw [if_pos h0, if_pos h0]
  · rw [if_neg h0, if_neg h0]
    simp only []
    have hn : (if pos % 4096 = 0 then min 8 bytes.length
        else min 8 (min bytes.length (4096 - pos % 4096))) = min 8 bytes.length := by
      by_cases hz : pos % 4096 = 0
      · rw [if_pos hz]
      · rw [if_neg hz]
        rcases h with h | h
        · exact absurd h hz
        · omega
    rw [hn]
    have htake : bytes.take (min 8 bytes.length) = bytes.take 8 := by
      rcases Nat.le_total 8 bytes.length with hle | hle
      · rw [Nat.min_eq_left hle]
      · rw [Nat.min_eq_right hle, List.take_length, List.take_of_length_le hle]
    have hrep : 8 - min 8 bytes.length = 8 - bytes.length := by omega
    rw [htake, hrep]

/-- Encode followed by Decode reproduces every well-formed NRGBA grid
whose trailer read does not stop at a 4096-byte buffer refill boundary:
the full round trip holds exactly off those boundaries
(roundtrip_straddle_bug below shows it fails on them). -/
theorem encode_decode_roundtrip_offboundary (m : Image) (hn : m.nrgba = true)
    (hw : 0 < m.width) (hh : 0 < m.height)
    (hbound : m.width * m.height ≤ 400000000)
    (hlen : m.pixels.length = m.width * m.height)
    (hwf : wfPixels m.pixels)
    (hpos : (14 + (chunksBytes (encodeLoop m.pixels encInit).1).length) % 4096 = 0
      ∨ 8 ≤ 4096 - (14 + (chunksBytes (encodeLoop m.pixels encInit).1).length) % 4096) :
    (Encode m).2 = none
    ∧ Decode (Encode m).1 = .ok ⟨m.width, m.height, m.pixels⟩ := by
  rw [Encode_ok m hn hw hh hbound]
  refine ⟨rfl, ?_⟩
  simp only []
  unfold Decode
  rw [List.append_assoc]
  rw [decodeHeader_encoded m.width m.height hw hh hbound _]
  simp only []
  obtain ⟨cd2, hdec, -, -⟩ :=
    encDecSim m.pixels encInit initCache qoiEndMarker hwf (by decide)
      (Nat.zero_le 61) (fun _ => rfl) cacheRel_init (Or.inr ⟨rfl, rfl⟩)
  simp only [encInit] at hdec hpos ⊢
  rw [Nat.zero_add] at hdec
  simp only [List.replicate_zero, List.nil_append] at hdec
  rw [← hlen]
  rw [show decInit = (⟨initCache, seedPixel, 0⟩ : DecSt) from rfl]
  rw [hdec]
  simp only []
  have hN : (headerBytes m.width m.height
        ++ (chunksBytes (encodeLoop m.pixels ⟨initCache, seedPixel, 0⟩).1 ++ qoiEndMarker)).length
        - qoiEndMarker.length
      = 14 + (chunksBytes (encodeLoop m.pixels ⟨initCache, seedPixel, 0⟩).1).length := by
    simp only [List.length_append, headerBytes_eq, qoiEndMarker,
      List.length_cons, List.length_nil]
    omega
  rw [hN]
  rw [decodePaddingAt_eq _ _ hpos]
  rw [decodePadding_marker]

/-- The off-boundary round trip at a concrete 2x1 image (10 body bytes,
trailer read at offset 24). -/
theorem encode_decode_roundtrip_offboundary_example :
    (Encode ⟨2, 1, true, [⟨1, 2, 3, 4⟩, ⟨200, 100, 50, 255⟩]⟩).2 = none
    ∧ Decode (Encode ⟨2, 1, true, [⟨1, 2, 3, 4⟩, ⟨200, 100, 50, 255⟩]⟩).1
        = .ok ⟨2, 1, [⟨1, 2, 3, 4⟩, ⟨200, 100, 50, 255⟩]⟩ :=
  encode_decode_roundtrip_offboundary ⟨2, 1, true, [⟨1, 2, 3, 4⟩, ⟨200, 100, 50, 255⟩]⟩
    rfl (by decide) (by decide) (by decide) (by decide) (by decide) (by decide)

/-- On a pixel list in which every pixel differs in alpha from its
predecessor, the pixels are pairwise distinct and none is already cached,
the encoder emits exactly one RGBA literal chunk per pixel. -/
theorem encodeLoop_all_rgba : ∀ (ps : List Pixel) (st : EncSt), st.run = 0 →
    List.Chain (fun p q => q.a ≠ p.a) st.prev ps →
    List.Pairwise (fun p q => p ≠ q) ps →
    (∀ p ∈ ps, ∀ s, ¬ st.cache s = p) →
    (encodeLoop ps st).1 = ps.map (fun p => Chunk.rgba p.r p.g p.b p.a) := by
  intro ps
  induction ps with
  | nil => intro st _ _ _ _; rfl
  | cons px rest ih =>
    intro st hrun hchain hpair hcache
    rcases hchain with _ | ⟨halpha, hchain2⟩
    have hne : ¬ px = st.prev := fun h => halpha (by rw [h])
    have hmiss : ¬ st.cache (hash px) = px :=
      hcache px (List.mem_cons_self px rest) (hash px)
    rw [encodeLoop_miss px rest st hne hmiss]
    simp only []
    rw [if_neg (show ¬ st.run > 0 by omega)]
    rw [if_neg halpha]
    rw [ih ⟨upd st.cache (hash px) px, px, 0⟩ rfl hchain2
      (List.pairwise_cons.mp hpair).2
      (fun p hp s => by
        show ¬ (if s = hash px then px else st.cache s) = p
        by_cases hs : s = hash px
        · rw [if_pos hs]
          exact fun hcon => (List.pairwise_cons.mp hpair).1 p hp hcon
        · rw [if_neg hs]
          exact hcache p (List.mem_cons_of_mem px hp) s)]
    rfl

/-- A list of RGBA literal chunks flattens to 5 bytes per pixel. -/
theorem chunksBytes_map_rgba_length (ps : List Pixel) :
    (chunksBytes (ps.map (fun p => Chunk.rgba p.r p.g p.b p.a))).length
      = 5 * ps.length := by
  induction ps with
  | nil => rfl
  | cons p rest ih =>
    rw [List.map_cons]
    rw [show chunksBytes (Chunk.rgba p.r p.g p.b p.a
          :: rest.map (fun p => Chunk.rgba p.r p.g p.b p.a))
        = chunkBytes (Chunk.rgba p.r p.g p.b p.a)
          ++ chunksBytes (rest.map (fun p => Chunk.rgba p.r p.g p.b p.a)) from rfl]
    rw [List.length_append, ih]
    simp only [chunkBytes, List.length_cons, List.length_nil]
    omega

theorem straddlePixels_length : straddlePixels.length = 815 := by
  unfold straddlePixels
  rw [List.length_map, List.length_range]

theorem straddlePixels_wf : wfPixels straddlePixels := by
  intro p hp
  unfold straddlePixels at hp
  obtain ⟨i, hi, rfl⟩ := List.mem_map.mp hp
  have hi2 : i < 815 := List.mem_range.mp hi
  exact ⟨show i % 256 < 256 from by omega,
    show i / 256 < 256 from by omega,
    show (0 : Nat) < 256 from by omega,
    show 253 + (i + 1) % 2 < 256 from by omega⟩

/-- Consecutive straddle pixels always change alpha. -/
theorem straddle_chain : ∀ (n k : Nat) (p : Pixel), p.a ≠ 253 + (k + 1) % 2 →
    List.Chain (fun p q => q.a ≠ p.a) p ((List.range' k n).map straddlePixel) := by
  intro n
  induction n with
  | zero => intro k p _; exact List.Chain.nil
  | succ m ih =>
    intro k p hp
    rw [show List.range' k (m + 1) = k :: List.range' (k + 1) m from rfl]
    rw [List.map_cons]
    exact List.Chain.cons (Ne.symm hp)
      (ih (k + 1) (straddlePixel k)
        (show 253 + (k + 1) % 2 ≠ 253 + (k + 1 + 1) % 2 from by omega))

theorem straddle_pairwise : List.Pairwise (fun p q => p ≠ q) straddlePixels := by
  unfold straddlePixels
  rw [List.pairwise_map]
  refine List.Pairwise.imp ?_ (List.pairwise_lt_range 815)
  intro i j hij hcon
  have h1 : i % 256 = j % 256 := congrArg Pixel.r hcon
  have h2 : i / 256 = j / 256 := congrArg Pixel.g hcon
  omega

theorem straddle_cache_fresh : ∀ p ∈ straddlePixels, ∀ s, ¬ initCache s = p := by
  intro p hp s
  unfold straddlePixels at hp
  obtain ⟨i, hi, rfl⟩ := List.mem_map.mp hp
  intro hcon
  have h1 : (0 : Nat) = 253 + (i + 1) % 2 := congrArg Pixel.a hcon
  omega

/-- The straddle image encodes to a 4075-byte chunk body. -/
theorem straddle_body_length :
    (chunksBytes (encodeLoop straddlePixels encInit).1).length = 4075 := by
  have hchain : List.Chain (fun p q => q.a ≠ p.a) encInit.prev straddlePixels := by
    show List.Chain _ seedPixel straddlePixels
    unfold straddlePixels
    rw [List.range_eq_range' 815]
    exact straddle_chain 815 0 seedPixel (by decide)
  rw [encodeLoop_all_rgba straddlePixels encInit rfl hchain
    straddle_pairwise straddle_cache_fresh]
  rw [chunksBytes_map_rgba_length, straddlePixels_length]

end QOI

namespace QOI

set_option maxRecDepth 4000 in
/-- Claim C1 is false as stated: the round trip fails on valid images.
The 815x1 straddle image is NRGBA, has valid geometry and well-formed
pixels, and Encode succeeds on it, producing 4097 bytes; but its 8-byte
trailer sits astride the decoder's 4096-byte buffer refill boundary, the
bufio Read at offset 4089 delivers only the 7 buffered bytes,
decodePadding ignores the returned count and compares the zero-padded
8-byte slice, and Decode fails with "unexpected EOF" instead of returning
the grid. -/
theorem roundtrip_straddle_bug :
    straddleImage.nrgba = true
    ∧ 0 < straddleImage.width ∧ 0 < straddleImage.height
    ∧ straddleImage.width * straddleImage.height ≤ 400000000
    ∧ straddleImage.pixels.length = straddleImage.width * straddleImage.height
    ∧ wfPixels straddleImage.pixels
    ∧ (Encode straddleImage).2 = none
    ∧ (Encode straddleImage).1.length = 4097
    ∧ Decode (Encode straddleImage).1 = .error DecErr.unexpectedEOF := by
  have henc := Encode_ok straddleImage rfl (by decide) (by decide) (by decide)
  refine ⟨rfl, by decide, by decide, by decide, ?_, straddlePixels_wf, ?_, ?_, ?_⟩
  · show straddlePixels.length = 815 * 1
    rw [straddlePixels_length]
  · rw [henc]
  · rw [henc]
    show (headerBytes 815 1 ++ chunksBytes (encodeLoop straddlePixels encInit).1
        ++ qoiEndMarker).length = 4097
    rw [List.length_append, List.length_append, straddle_body_length]
    rfl
  · rw [henc]
    simp only []
    show Decode (headerBytes 815 1 ++ chunksBytes (encodeLoop straddlePixels encInit).1
        ++ qoiEndMarker) = .error DecErr.unexpectedEOF
    unfold Decode
    rw [List.append_assoc]
    rw [decodeHeader_encoded 815 1 (by decide) (by decide) (by decide) _]
    simp only []
    obtain ⟨cd2, hdec, -, -⟩ :=
      encDecSim straddlePixels encInit initCache qoiEndMarker straddlePixels_wf (by decide)
        (Nat.zero_le 61) (fun _ => rfl) cacheRel_init (Or.inr ⟨rfl, rfl⟩)
    simp only [encInit] at hdec ⊢
    rw [Nat.zero_add] at hdec
    simp only [List.replicate_zero, List.nil_append] at hdec
    rw [show (815 * 1 : Nat) = straddlePixels.length from by rw [straddlePixels_length]]
    rw [show decInit = (⟨initCache, seedPixel, 0⟩ : DecSt) from rfl]
    rw [hdec]
    simp only []
    have hN : (headerBytes 815 1
          ++ (chunksBytes (encodeLoop straddlePixels ⟨initCache, seedPixel, 0⟩).1
            ++ qoiEndMarker)).length - qoiEndMarker.length = 4089 := by
      have hb : (chunksBytes (encodeLoop straddlePixels ⟨initCache, seedPixel, 0⟩).1).length
          = 4075 := straddle_body_length
      simp only [List.length_append, headerBytes_eq, qoiEndMarker,
        List.length_cons, List.length_nil]
      omega
    rw [hN]
    rw [show decodePaddingAt 4089 qoiEndMarker = .error DecErr.unexpectedEOF from rfl]

end QOI

namespace QOI

/-- Claim C2 is false as stated: after both sides process the whole
one-chunk stream of the 1x1 seed-pixel image, the decoder cache holds the
seed pixel at slot hash(0,0,0,255) = 53 while the encoder cache still
holds the zero pixel there (the decoder stores pxPrev on a RUN chunk, the
encoder does not). -/
theorem cache_sync_counterexample :
    (encodeLoop [seedPixel] encInit).2.cache (hash seedPixel) = zeroPixel
    ∧ (decodeLoop 1 decInit (chunksBytes (encodeLoop [seedPixel] encInit).1)).map
        (fun x => x.2.1.cache (hash seedPixel)) = some seedPixel
    ∧ seedPixel ≠ zeroPixel :=
  ⟨rfl, rfl, by decide⟩

/-- Claim C2 (amended): decoding the encoding of any well-formed pixel
sequence succeeds, and afterwards the two caches agree on every slot
except possibly slot hash(0,0,0,255) = 53, where the decoder may hold the
seed pixel while the encoder still holds the initial zero pixel; in
particular they agree on every slot whose encoder entry an INDEX lookup
could ever match. -/
theorem cache_sync_amended (ps : List Pixel) (tail : List Nat) (hwf : wfPixels ps) :
    ∃ cd2,
      decodeLoop ps.length decInit (chunksBytes (encodeLoop ps encInit).1 ++ tail)
        = some (ps, ⟨cd2, (encodeLoop ps encInit).2.prev, 0⟩, tail)
      ∧ ∀ s, cd2 s = (encodeLoop ps encInit).2.cache s
          ∨ (s = hash seedPixel ∧ cd2 s = seedPixel
             ∧ (encodeLoop ps encInit).2.cache s = zeroPixel) := by
  obtain ⟨cd2, hdec, hrel, -⟩ :=
    encDecSim ps ⟨initCache, seedPixel, 0⟩ initCache tail hwf (by decide)
      (Nat.zero_le 61) (fun _ => rfl) cacheRel_init (Or.inr ⟨rfl, rfl⟩)
  simp only [] at hdec
  rw [Nat.zero_add] at hdec
  simp only [List.replicate_zero, List.nil_append] at hdec
  refine ⟨cd2, ?_, fun s => hrel s⟩
  exact hdec

/-- Witness for the amended claim C2 at the 1x1 seed image. -/
theorem cache_sync_amended_witness :
    ∃ cd2,
      decodeLoop [seedPixel].length decInit
          (chunksBytes (encodeLoop [seedPixel] encInit).1 ++ [])
        = some ([seedPixel], ⟨cd2, (encodeLoop [seedPixel] encInit).2.prev, 0⟩, [])
      ∧ ∀ s, cd2 s = (encodeLoop [seedPixel] encInit).2.cache s
          ∨ (s = hash seedPixel ∧ cd2 s = seedPixel
             ∧ (encodeLoop [seedPixel] encInit).2.cache s = zeroPixel) :=
  cache_sync_amended [seedPixel] [] (by decide)

/-- Claim C3 fails on the code: both header decoders accept headers whose
declared width*height product exceeds 400000000, because the product
check overflows (wrapping 64-bit signed arithmetic in decoder.go, so
4294967295 x 4294967295 wraps negative; wrapping uint32 arithmetic in the
older root decoder, so 65536 x 65536 wraps to 0). -/
theorem header_overflow_accepted :
    decodeHeader [113, 111, 105, 102, 255, 255, 255, 255, 255, 255, 255, 255, 4, 0]
      = .ok (⟨4294967295, 4294967295, 4, 0⟩, [])
    ∧ 4294967295 * 4294967295 > qoiMaxPixels
    ∧ decodeHeaderOld [113, 111, 105, 102, 0, 1, 0, 0, 0, 1, 0, 0, 4, 0]
      = .ok (⟨65536, 65536, 4, 0⟩, [])
    ∧ 65536 * 65536 > qoiMaxPixels :=
  ⟨rfl, by decide, rfl, by decide⟩

/-- Claim C4: after the pixels, decodePadding succeeds exactly when the
remaining stream is the 8 end-marker bytes and nothing more: a marker
mismatch fails, and any byte after a correct marker fails. -/
theorem trailer_iff_endmarker (rest : List Nat) :
    decodePadding rest = .ok () ↔ rest = qoiEndMarker := by
  constructor
  · intro hok
    unfold decodePadding at hok
    by_cases h0 : rest.length = 0
    · rw [if_pos h0] at hok
      exact absurd hok (by simp)
    rw [if_neg h0] at hok
    by_cases hpad : rest.take 8 ++ List.replicate (8 - rest.length) 0 ≠ qoiEndMarker
    · rw [if_pos hpad] at hok
      exact absurd hok (by simp)
    rw [if_neg hpad] at hok
    push_neg at hpad
    by_cases hdrop : rest.drop 8 ≠ []
    · rw [if_pos hdrop] at hok
      exact absurd hok (by simp)
    push_neg at hdrop
    have hle : rest.length ≤ 8 := by
      rw [List.drop_eq_nil_iff] at hdrop
      exact hdrop
    have hlen8 : rest.length = 8 := by
      by_contra hneq
      have hlt : rest.length < 8 := by omega
      have h7 := congrArg (fun l => l.getD 7 99) hpad
      simp only [] at h7
      rw [List.take_of_length_le hle] at h7
      rw [List.getD_append_right _ _ _ _ (by omega : rest.length ≤ 7)] at h7
      rw [List.getD_eq_getElem?_getD, List.getElem?_replicate, if_pos (by omega)] at h7
      exact absurd h7 (by decide)
    rw [List.take_of_length_le hle] at hpad
    rw [show 8 - rest.length = 0 from by omega] at hpad
    simpa using hpad
  · intro h
    subst h
    exact decodePadding_marker

/-- Witness for claim C4: the exact marker succeeds, marker plus one
trailing byte fails. -/
theorem trailer_iff_endmarker_witness :
    decodePadding [0, 0, 0, 0, 0, 0, 0, 1] = .ok ()
    ∧ decodePadding [0, 0, 0, 0, 0, 0, 0, 1, 7] ≠ .ok () :=
  ⟨(trailer_iff_endmarker qoiEndMarker).mpr rfl,
   fun hok => absurd ((trailer_iff_endmarker [0, 0, 0, 0, 0, 0, 0, 1, 7]).mp hok)
     (by decide)⟩

/-- Claim C5 is false as stated: Encode also fails on an image whose color
model is not image.NRGBA, even though its geometry (1 x 1) is valid and no
write to the sink ever fails. -/
theorem encode_error_counterexample :
    (Encode ⟨1, 1, false, [zeroPixel]⟩).2 ≠ none
    ∧ ¬((1 : Nat) = 0 ∨ (1 : Nat) = 0 ∨ (1 : Nat) * 1 > 400000000) := by
  decide

/-- Claim C5 (amended): with a never-failing sink, Encode fails exactly
when the color model is not NRGBA or the geometry check fails (width 0,
height 0, or width*height - evaluated in wrapping 64-bit arithmetic as in
the Go source - above 400000000); on every failure zero bytes have been
written, and the color-model failure is exactly the notNRGBA error. -/
theorem encode_error_amended (m : Image) :
    ((Encode m).2 = none
      ↔ (m.nrgba = true ∧ ¬(m.width = 0 ∨ m.height = 0
          ∨ i64 (m.width * m.height) > (qoiMaxPixels : Int))))
    ∧ ((Encode m).2.isSome → (Encode m).1 = [])
    ∧ ((Encode m).2 = some EncErr.notNRGBA ↔ m.nrgba = false) := by
  unfold Encode
  by_cases hn : m.nrgba = false
  · rw [if_pos hn]
    simp [hn]
  · rw [if_neg hn]
    have hn2 : m.nrgba = true := by
      cases hb : m.nrgba
      · exact absurd hb hn
      · rfl
    by_cases hg : m.width = 0 ∨ m.height = 0 ∨ i64 (m.width * m.height) > (qoiMaxPixels : Int)
    · rw [if_pos hg]
      simp [hn2, hg]
    · rw [if_neg hg]
      simp [hn2, hg]

/-- Witness for the amended claim C5 at a non-NRGBA image of valid
geometry. -/
theorem encode_error_amended_witness :
    ((Encode ⟨1, 2, false, []⟩).2 = none
      ↔ (false = true ∧ ¬((1 : Nat) = 0 ∨ (2 : Nat) = 0
          ∨ i64 (1 * 2) > (qoiMaxPixels : Int))))
    ∧ ((Encode ⟨1, 2, false, []⟩).2.isSome → (Encode ⟨1, 2, false, []⟩).1 = [])
    ∧ ((Encode ⟨1, 2, false, []⟩).2 = some EncErr.notNRGBA ↔ false = false) :=
  encode_error_amended ⟨1, 2, false, []⟩

/-- Claim C6: hash is a pure function of the four channel bytes; the
uint8 wrap-around of every product and running sum changes nothing before
the final mod 64, and hash(0,0,0,0) = 0. -/
theorem hash_formula :
    (∀ c : Pixel, hash c = (3 * c.r + 5 * c.g + 7 * c.b + 11 * c.a) % 64)
    ∧ hash zeroPixel = 0 := by
  constructor
  · intro c
    unfold hash qoiMaxBufferSize
    omega
  · decide

/-- Claim C7: the 1x3 image of three seed pixels encodes to the single
RUN byte 0b11000010 as its entire body, and the 1x1 seed image to the
single RUN byte 0b11000000 - a run chunk is emitted even for a single
matching pixel at end of image. -/
theorem run_encoding_literal :
    Encode ⟨1, 3, true, [seedPixel, seedPixel, seedPixel]⟩
      = (headerBytes 1 3 ++ [0b11000010] ++ qoiEndMarker, none)
    ∧ (encodeLoop [seedPixel, seedPixel, seedPixel] encInit).1 = [Chunk.run 3]
    ∧ Encode ⟨1, 1, true, [seedPixel]⟩
      = (headerBytes 1 1 ++ [0b11000000] ++ qoiEndMarker, none)
    ∧ (encodeLoop [seedPixel] encInit).1 = [Chunk.run 1] :=
  ⟨rfl, rfl, rfl, rfl⟩

/-- Claim C9: every image whose color model is not image.NRGBA is
rejected immediately, with no bytes written, whatever its geometry. -/
theorem nonNRGBA_rejected (m : Image) (h : m.nrgba = false) :
    Encode m = ([], some EncErr.notNRGBA) := by
  unfold Encode
  rw [if_pos h]

/-- Witness for claim C9. -/
theorem nonNRGBA_rejected_witness :
    Encode ⟨5, 5, false, []⟩ = ([], some EncErr.notNRGBA) :=
  nonNRGBA_rejected ⟨5, 5, false, []⟩ rfl

end QOI

namespace QOI

/-- Claim C8: with equal alpha and a cache miss, a wrapped per-channel
delta of exactly (+1,+1,+1) encodes as the single DIFF byte 0b01111111,
and a delta of (+2,0,0) never encodes as DIFF: it falls through to the
LUMA chunk with bytes 0b10100000 0b10101000. -/
theorem diff_boundary (cache : Nat → Pixel) (pe px : Pixel)
    (ha : px.a = pe.a) (hmiss : ¬ cache (hash px) = px) :
    ((wrap8 (i8 px.r - i8 pe.r) = 1 ∧ wrap8 (i8 px.g - i8 pe.g) = 1
        ∧ wrap8 (i8 px.b - i8 pe.b) = 1 →
      (encodeLoop [px] ⟨cache, pe, 0⟩).1 = [Chunk.diff 0b01111111])
    ∧ (wrap8 (i8 px.r - i8 pe.r) = 2 ∧ wrap8 (i8 px.g - i8 pe.g) = 0
        ∧ wrap8 (i8 px.b - i8 pe.b) = 0 →
      (encodeLoop [px] ⟨cache, pe, 0⟩).1 = [Chunk.luma 0b10100000 0b10101000])) := by
  constructor
  · rintro ⟨hr, hg, hb⟩
    have hne : ¬ px = pe := by
      intro habs
      rw [habs, sub_self] at hr
      exact absurd hr (by decide)
    rw [encodeLoop_miss px [] ⟨cache, pe, 0⟩ hne hmiss]
    simp only []
    rw [if_pos ha, hr, hg, hb]
    rw [if_pos (by decide : (1 : Int) > -3 ∧ (1 : Int) < 2 ∧ (1 : Int) > -3
      ∧ (1 : Int) < 2 ∧ (1 : Int) > -3 ∧ (1 : Int) < 2)]
    simp [encodeLoop]
    decide
  · rintro ⟨hr, hg, hb⟩
    have hne : ¬ px = pe := by
      intro habs
      rw [habs, sub_self] at hr
      exact absurd hr (by decide)
    rw [encodeLoop_miss px [] ⟨cache, pe, 0⟩ hne hmiss]
    simp only []
    rw [if_pos ha, hr, hg, hb]
    rw [if_neg (by decide : ¬ ((2 : Int) > -3 ∧ (2 : Int) < 2 ∧ (0 : Int) > -3
      ∧ (0 : Int) < 2 ∧ (0 : Int) > -3 ∧ (0 : Int) < 2))]
    rw [if_pos (by decide : wrap8 (2 - 0) > -9 ∧ wrap8 (2 - 0) < 8 ∧ (0 : Int) > -33
      ∧ (0 : Int) < 32 ∧ wrap8 (0 - 0) > -9 ∧ wrap8 (0 - 0) < 8)]
    simp [encodeLoop]
    decide

/-- Witness for claim C8: both cases at concrete pixels over the seed. -/
theorem diff_boundary_witness :
    (encodeLoop [⟨1, 1, 1, 255⟩] ⟨initCache, seedPixel, 0⟩).1 = [Chunk.diff 0b01111111]
    ∧ (encodeLoop [⟨2, 0, 0, 255⟩] ⟨initCache, seedPixel, 0⟩).1
        = [Chunk.luma 0b10100000 0b10101000] :=
  ⟨(diff_boundary initCache seedPixel ⟨1, 1, 1, 255⟩ rfl (by decide)).1 (by decide),
   (diff_boundary initCache seedPixel ⟨2, 0, 0, 255⟩ rfl (by decide)).2 (by decide)⟩

/-- Claim C10: every RUN chunk the encoder can emit (starting from any
state whose pending run is at most 61, as the initial state's is) carries
a run length between 1 and 62, and its byte opRUN|(length-1) lies between
0b11000000 and 0b11111101, never equal to the RGB or RGBA tag. -/
theorem run_chunk_bytes_in_range (ps : List Pixel) : ∀ (st : EncSt), st.run ≤ 61 →
    ∀ r, Chunk.run r ∈ (encodeLoop ps st).1 →
      1 ≤ r ∧ r ≤ qoiMaxRunSize
      ∧ ∀ b ∈ chunkBytes (Chunk.run r), opRUN ≤ b ∧ b ≤ 253 ∧ b ≠ opRGB ∧ b ≠ opRGBA := by
  induction ps with
  | nil =>
    intro st hrun r hmem
    simp [encodeLoop] at hmem
  | cons px rest ih =>
    intro st hrun r hmem
    by_cases heq : px = st.prev
    · by_cases hcond : st.run + 1 = qoiMaxRunSize ∨ rest = []
      · rw [encodeLoop_runA px rest st heq hcond] at hmem
        simp only [] at hmem
        rcases List.mem_cons.mp hmem with hhd | htl
        · have hr : r = st.run + 1 := by
            injection hhd
          subst hr
          refine ⟨by omega, ?_, ?_⟩
          · rcases hcond with hc | hc
            · rw [← hc]
            · unfold qoiMaxRunSize
              omega
          · intro b hb
            simp only [chunkBytes, List.mem_singleton] at hb
            subst hb
            obtain ⟨hA, hB, -, -, -, -, -, hH, hI⟩ :=
              runByteFacts (st.run + 1 - 1) (by omega)
            exact ⟨hH, hI, hA, hB⟩
        · exact ih ⟨st.cache, px, 0⟩ (Nat.zero_le 61) r htl
      · rw [encodeLoop_runB px rest st heq hcond] at hmem
        have h62 : ¬ st.run + 1 = qoiMaxRunSize := fun h => hcond (Or.inl h)
        unfold qoiMaxRunSize at h62
        exact ih ⟨st.cache, px, st.run + 1⟩ (show st.run + 1 ≤ 61 by omega) r hmem
    · by_cases hhit : st.cache (hash px) = px
      · rw [encodeLoop_hit px rest st heq hhit] at hmem
        simp only [] at hmem
        rcases List.mem_append.mp hmem with hfl | hmem2
        · by_cases hpos : st.run > 0
          · rw [if_pos hpos] at hfl
            have hr : r = st.run := by
              have := List.mem_singleton.mp hfl
              injection this
            subst hr
            refine ⟨by omega, by unfold qoiMaxRunSize; omega, ?_⟩
            intro b hb
            simp only [chunkBytes, List.mem_singleton] at hb
            subst hb
            obtain ⟨hA, hB, -, -, -, -, -, hH, hI⟩ :=
              runByteFacts (st.run - 1) (by omega)
            exact ⟨hH, hI, hA, hB⟩
          · rw [if_neg hpos] at hfl
            simp at hfl
        · rcases List.mem_cons.mp hmem2 with hhd | htl
          · exact absurd hhd (by simp)
          · exact ih ⟨st.cache, px, 0⟩ (Nat.zero_le 61) r htl
      · rw [encodeLoop_miss px rest st heq hhit] at hmem
        simp only [] at hmem
        rcases List.mem_append.mp hmem with hfl | hmem2
        · by_cases hpos : st.run > 0
          · rw [if_pos hpos] at hfl
            have hr : r = st.run := by
              have := List.mem_singleton.mp hfl
              injection this
            subst hr
            refine ⟨by omega, by unfold qoiMaxRunSize; omega, ?_⟩
            intro b hb
            simp only [chunkBytes, List.mem_singleton] at hb
            subst hb
            obtain ⟨hA, hB, -, -, -, -, -, hH, hI⟩ :=
              runByteFacts (st.run - 1) (by omega)
            exact ⟨hH, hI, hA, hB⟩
          · rw [if_neg hpos] at hfl
            simp at hfl
        · rcases List.mem_cons.mp hmem2 with hhd | htl
          · exfalso
            split at hhd
            · split at hhd
              · exact absurd hhd (by simp)
              · split at hhd
                · exact absurd hhd (by simp)
                · exact absurd hhd (by simp)
            · exact absurd hhd (by simp)
          · exact ih ⟨upd st.cache (hash px) px, px, 0⟩ (Nat.zero_le 61) r htl

/-- Witness for claim C10 at the 1x1 seed image. -/
theorem run_chunk_bytes_in_range_witness :
    1 ≤ 1 ∧ 1 ≤ qoiMaxRunSize
    ∧ ∀ b ∈ chunkBytes (Chunk.run 1), opRUN ≤ b ∧ b ≤ 253 ∧ b ≠ opRGB ∧ b ≠ opRGBA :=
  run_chunk_bytes_in_range [seedPixel] encInit (by decide) 1 (by decide)

end QOI
